import Mathlib

/-!
Shallow embedding of the query-time retrieval and ranking core in
`start.py`: posting-list decoding, the three ranking models (TF-IDF,
BM25, cosine), and top-N selection.

Modelling conventions:
* Python `bytes` values are `List Nat`; `int.from_bytes(_, 'big')` is a
  base-256 fold, and a Python slice `b[i:j]` is `(b.drop i).take (j - i)`
  (both silently clamp at the end of the sequence, as Python does).
* Floating-point scores are modelled by `ℚ`; the external math library
  calls `np.log10`, `np.log` and `np.linalg.norm`'s square root are
  abstract function parameters (`log10`, `ln`, `sqrt`), so every theorem
  below holds for any interpretation of those externals.
* A Python `dict` is an insertion-ordered association list; `Counter`
  is the same over query tokens.  The segment reader composed with
  `inverted.posting_locs[w]` is modelled by the per-term byte store
  `Index.posting_bytes`, and `reader.read(locs, n)` returns the first
  `n` available bytes (fewer when the store is truncated).
-/

namespace IR

/-- Python `int.from_bytes(b, 'big')`: big-endian base-256 value of a byte
string; the empty string decodes to `0`. -/
def intFromBytes (b : List Nat) : Nat :=
  b.foldl (fun a c => a * 256 + c) 0

/-- Python slice `b[i:j]` for `0 ≤ i ≤ j`, clamping at the end. -/
def pySlice (b : List Nat) (i j : Nat) : List Nat :=
  (b.drop i).take (j - i)

/-- The read-only Index View plus the segment store it points at:
`term_total` is the key list of the term-total mapping, `df` the
document-frequency mapping, `posting_bytes w` the bytes stored at
`posting_locs[w]`, `DL` the document-length mapping and `docs_norm`
the precomputed document vector norms. -/
structure Index where
  term_total : List String
  df : String → Nat
  posting_bytes : String → List Nat
  DL : Nat → ℚ
  docs_norm : Nat → ℚ

/-- Model of `MultiFileReader.read(locs, n)`: return the first `n` bytes available
at the requested locations (fewer when the store holds fewer). -/
def reader_read (stored : List Nat) (n : Nat) : List Nat :=
  stored.take n

/-- Model of `read_posting_list`: request `df[w] * 6` bytes from the reader and
decode `df[w]` records of 6 bytes each — `b[6i:6i+4]` big-endian doc id,
`b[6i+4:6i+6]` big-endian term frequency. -/
def read_posting_list (inverted : Index) (w : String) : List (Nat × Nat) :=
  let b := reader_read (inverted.posting_bytes w) (inverted.df w * 6)
  (List.range (inverted.df w)).map (fun i =>
    (intFromBytes (pySlice b (i * 6) (i * 6 + 4)),
     intFromBytes (pySlice b (i * 6 + 4) ((i + 1) * 6))))

/-- One `Counter` update: bump the count of `t`, appending a fresh
`(t, 1)` entry when `t` is new (Python dicts keep insertion order). -/
def counterAdd (m : List (String × Nat)) (t : String) : List (String × Nat) :=
  match m with
  | [] => [(t, 1)]
  | (k, c) :: rest => if k = t then (k, c + 1) :: rest else (k, c) :: counterAdd rest t

/-- Model of `list(Counter(q_tokens).items())`: distinct tokens in first-occurrence
order, each with its multiplicity. -/
def counterItems (q_tokens : List String) : List (String × Nat) :=
  q_tokens.foldl counterAdd []

/-- A per-query score dictionary: insertion-ordered doc-id / score pairs. -/
abbrev ScoreMap := List (Nat × ℚ)

/-- The shared dict update `d[k] += v` / `d[k] = v` of all three models:
add to an existing entry in place, or append a new one. -/
def dictAdd (m : ScoreMap) (d : Nat) (v : ℚ) : ScoreMap :=
  match m with
  | [] => [(d, v)]
  | (k, s) :: rest => if k = d then (k, s + v) :: rest else (k, s) :: dictAdd rest d v

/-- Dictionary lookup (`d[k]` / `k in d`). -/
def dictGet (m : ScoreMap) (d : Nat) : Option ℚ :=
  match m with
  | [] => none
  | (k, s) :: rest => if k = d then some s else dictGet rest d

/-- The accumulated score of `d`, reading an absent document as `0`. -/
def scoreD (m : ScoreMap) (d : Nat) : ℚ :=
  (dictGet m d).getD 0

/-- The key list of a score dictionary. -/
def keys (m : ScoreMap) : List Nat :=
  m.map Prod.fst

/-- The inner posting loop shared by all three models: for every decoded
`(doc_id, word_count)` with `doc_id != 0`, add `w doc_id word_count` into
the document's entry. -/
def postingAccum (w : Nat → Nat → ℚ) (m : ScoreMap) (ps : List (Nat × Nat)) : ScoreMap :=
  ps.foldl (fun acc p => if p.1 ≠ 0 then dictAdd acc p.1 (w p.1 p.2) else acc) m

/-- The outer term loop shared by the models: for every `(term, count)`
item of the query counter, skip the term unless it is a key of
`index.term_total`, otherwise merge its posting list with the per-pair
weight `w term count doc_id word_count`. -/
def termLoop (index : Index) (w : String → Nat → Nat → Nat → ℚ)
    (m : ScoreMap) (items : List (String × Nat)) : ScoreMap :=
  items.foldl (fun acc it =>
    if it.1 ∈ index.term_total then
      postingAccum (fun did wc => w it.1 it.2 did wc) acc (read_posting_list index it.1)
    else acc) m

/-- Descending-by-score comparison used to model
`sorted(dict, key=dict.get, reverse=True)` (stable). -/
def byScoreDesc (a b : Nat × ℚ) : Bool :=
  decide (b.2 ≤ a.2)

/-- Model of `sorted(query_sim_dict, key=query_sim_dict.get, reverse=True)`:
dictionary keys sorted by descending score, ties kept in insertion
order. -/
def sortedKeys (m : ScoreMap) : List Nat :=
  (m.mergeSort byScoreDesc).map Prod.fst

/-- The top-N tail shared by the three ranking functions:
`sorted(...)[:N]` when the dict has more than `N` entries, the whole
sorted key list otherwise. -/
def topN (m : ScoreMap) (N : Nat) : List Nat :=
  if N < m.length then (sortedKeys m).take N else sortedKeys m

/-- The accumulation loop of `OPT_Tfidf`: per pair
`tw = word_count * log10(corpus_docs / df)`, accumulate
`query_word_count * tw`. -/
def tfidf_accum (log10 : ℚ → ℚ) (q_tokens : List String) (index : Index)
    (corpus_docs : ℚ) : ScoreMap :=
  termLoop index
    (fun t c _ wc => (c : ℚ) * ((wc : ℚ) * log10 (corpus_docs / (index.df t : ℚ))))
    [] (counterItems q_tokens)

/-- The score dictionary built by `OPT_Tfidf`: the accumulation loop
followed by the final pass multiplying each entry by
`(1 / query_size) * (1 / DL[doc_id])`. -/
def OPT_Tfidf_sim (log10 : ℚ → ℚ) (q_tokens : List String) (index : Index)
    (corpus_docs : ℚ) : ScoreMap :=
  let query_size : ℚ := (q_tokens.length : ℚ)
  (tfidf_accum log10 q_tokens index corpus_docs).map
    (fun e => (e.1, e.2 * (1 / query_size) * (1 / index.DL e.1)))

/-- Model of `OPT_Tfidf`: the TF-IDF ranking function. -/
def OPT_Tfidf (log10 : ℚ → ℚ) (q_tokens : List String) (index : Index)
    (corpus_docs : ℚ) (N : Nat) : List Nat :=
  topN (OPT_Tfidf_sim log10 q_tokens index corpus_docs) N

/-- Model of `calc_BM25`: for each distinct query term (its count discarded),
`q_idf = ln((1 + corpus_docs) / (df + 0.5))` computed once per term, then
per pair `tw = word_count*(k+1) / (word_count + k*(1 - b + b*DL/avg_dl))`
accumulating `tw * q_idf`.  The source checks term membership twice; both
checks are kept. -/
def calc_BM25 (ln : ℚ → ℚ) (q_tokens : List String) (index : Index)
    (corpus_docs avg_dl k b : ℚ) : ScoreMap :=
  (counterItems q_tokens).foldl (fun m it =>
    if it.1 ∈ index.term_total then
      let q_idf := ln ((1 + corpus_docs) / ((index.df it.1 : ℚ) + 1/2))
      if it.1 ∈ index.term_total then
        postingAccum
          (fun did wc =>
            ((wc : ℚ) * (k + 1) / ((wc : ℚ) + k * (1 - b + b * index.DL did / avg_dl))) * q_idf)
          m (read_posting_list index it.1)
      else m
    else m) []

/-- Model of `opt_BM25`: ranks by `calc_BM25`.  The source calls `calc_BM25`
without forwarding `k` and `b`, so the defaults `k = 3`, `b = 0.25` are
always used; the parameters `k` and `b` of this function are accepted and
ignored, exactly as in the source. -/
def opt_BM25 (ln : ℚ → ℚ) (q_tokens : List String) (index : Index)
    (corpus_docs avg_dl k b : ℚ) (N : Nat) : List Nat :=
  topN (calc_BM25 ln q_tokens index corpus_docs avg_dl 3 (1/4)) N

/-- Model of `opt_BM25_for_joint`: same accumulation (again with `k`, `b` not
forwarded), returning `(doc_id, score)` pairs instead of bare ids. -/
def opt_BM25_for_joint (ln : ℚ → ℚ) (q_tokens : List String) (index : Index)
    (corpus_docs avg_dl k b : ℚ) (N : Nat) : List (Nat × ℚ) :=
  let query_sim_dict := calc_BM25 ln q_tokens index corpus_docs avg_dl 3 (1/4)
  (topN query_sim_dict N).map (fun key => (key, scoreD query_sim_dict key))

/-- Model of `np.linalg.norm` on a rational vector, its square root abstract. -/
def normL2 (sqrt : ℚ → ℚ) (v : List ℚ) : ℚ :=
  sqrt ((v.map (fun x => x ^ 2)).sum)

/-- The accumulation loop of `OPT_Cosine`: per pair add
`word_count * query_word_count` (no IDF factor). -/
def cosine_accum (q_tokens : List String) (index : Index) : ScoreMap :=
  termLoop index (fun _ c _ wc => (wc : ℚ) * (c : ℚ)) [] (counterItems q_tokens)

/-- The score dictionary built by `OPT_Cosine`: the accumulation loop
followed by the final pass multiplying each entry by
`(1 / query_norm) * (1 / docs_norm[doc_id])`, where `query_norm` is the
L2 norm of the vector of `count / query_size` over distinct terms. -/
def OPT_Cosine_sim (sqrt : ℚ → ℚ) (q_tokens : List String) (index : Index) : ScoreMap :=
  let query_size : ℚ := (q_tokens.length : ℚ)
  let query_norm := normL2 sqrt ((counterItems q_tokens).map (fun item => (item.2 : ℚ) / query_size))
  (cosine_accum q_tokens index).map
    (fun e => (e.1, e.2 * (1 / query_norm) * (1 / index.docs_norm e.1)))

/-- Model of `OPT_Cosine`: the cosine-similarity ranking function. -/
def OPT_Cosine (sqrt : ℚ → ℚ) (q_tokens : List String) (index : Index) (N : Nat) : List Nat :=
  topN (OPT_Cosine_sim sqrt q_tokens index) N

/-- The total weight a posting list contributes to document `d` under the
per-pair weight `w`: the sum of `w` over the postings whose doc id is `d`. -/
def pSum (w : Nat → Nat → ℚ) (d : Nat) (ps : List (Nat × Nat)) : ℚ :=
  ((ps.filter (fun p => decide (p.1 = d))).map (fun p => w p.1 p.2)).sum

/-- One step of the outer term loop, as a function of the term alone
(used to reason about term-order independence). -/
def keyStep (index : Index) (w2 : String → Nat → Nat → ℚ) (m : ScoreMap) (t : String) :
    ScoreMap :=
  if t ∈ index.term_total then
    postingAccum (fun did wc => w2 t did wc) m (read_posting_list index t)
  else m

/-- The outer term loop driven by bare terms, for count-independent
weights. -/
def keyLoop (index : Index) (w2 : String → Nat → Nat → ℚ) (m : ScoreMap)
    (ts : List String) : ScoreMap :=
  ts.foldl (keyStep index w2) m

/-- Two score dictionaries equal as Python dicts: same keys bound to the
same scores, independently of insertion order. -/
def SameScores (m1 m2 : ScoreMap) : Prop :=
  ∀ x, dictGet m1 x = dictGet m2 x

/-- The per-pair BM25 weight times the per-term IDF, as a function of the
term and the decoded posting. -/
def bm25_weight (ln : ℚ → ℚ) (index : Index) (corpus_docs avg_dl k b : ℚ)
    (t : String) (did wc : Nat) : ℚ :=
  ((wc : ℚ) * (k + 1) / ((wc : ℚ) + k * (1 - b + b * index.DL did / avg_dl))) *
    ln ((1 + corpus_docs) / ((index.df t : ℚ) + 1/2))

/-- A one-term, one-posting index: term `cat` with document frequency 1
and stored posting `(doc_id 5, tf 2)`, `DL = avg_dl = 100`. -/
def catIdx : Index where
  term_total := ["cat"]
  df := fun w => if w = "cat" then 1 else 0
  posting_bytes := fun w => if w = "cat" then [0, 0, 0, 5, 0, 2] else []
  DL := fun _ => 100
  docs_norm := fun _ => 1

/-- The spec's TF-IDF worked example: term `cat` with `df = 2` but a
single stored posting `(doc_id 7, tf 3)`, `DL[7] = 50`. -/
def tfidfExampleIdx : Index where
  term_total := ["cat"]
  df := fun w => if w = "cat" then 2 else 0
  posting_bytes := fun w => if w = "cat" then [0, 0, 0, 7, 0, 3] else []
  DL := fun _ => 50
  docs_norm := fun _ => 1

/-- A small index over terms `a` and `b`, each with one posting. -/
def abIdx : Index where
  term_total := ["a", "b"]
  df := fun w => if w = "a" then 1 else if w = "b" then 1 else 0
  posting_bytes := fun w =>
    if w = "a" then [0, 0, 0, 5, 0, 2] else if w = "b" then [0, 0, 0, 6, 0, 4] else []
  DL := fun _ => 1
  docs_norm := fun _ => 1

/-- A truncated store: term `w` has document frequency 1, so the codec
requests 6 bytes, but the store holds none. -/
def truncIdx : Index where
  term_total := ["w"]
  df := fun v => if v = "w" then 1 else 0
  posting_bytes := fun _ => []
  DL := fun _ => 100
  docs_norm := fun _ => 1

theorem dictGet_dictAdd (m : ScoreMap) (d : Nat) (v : ℚ) (x : Nat) :
    dictGet (dictAdd m d v) x = if x = d then some (scoreD m d + v) else dictGet m x := by
  induction m with
  | nil =>
    by_cases h : x = d
    · simp [dictAdd, dictGet, scoreD, h]
    · have h2 : ¬ d = x := fun hh => h hh.symm
      simp [dictAdd, dictGet, scoreD, h, h2]
  | cons e rest ih =>
    obtain ⟨k, s⟩ := e
    by_cases hkd : k = d <;> by_cases hkx : k = x
    · have hxd : x = d := by rw [← hkx, hkd]
      simp [dictAdd, dictGet, scoreD, hkd, hkx, hxd]
    · have hxd : ¬ x = d := by
        intro h
        exact hkx (by rw [hkd, ← h])
      have hdx : ¬ d = x := fun hh => hxd hh.symm
      simp [dictAdd, dictGet, scoreD, hkd, hkx, hxd, hdx]
    · have hxd : ¬ x = d := by
        intro h
        exact hkd (by rw [hkx, h])
      simp [dictAdd, dictGet, scoreD, hkd, hkx, hxd]
    · simp [dictAdd, dictGet, scoreD, hkd, hkx, ih]

theorem scoreD_dictAdd (m : ScoreMap) (d : Nat) (v : ℚ) (x : Nat) :
    scoreD (dictAdd m d v) x = if x = d then scoreD m d + v else scoreD m x := by
  simp only [scoreD, dictGet_dictAdd]
  by_cases h : x = d <;> simp [h]

theorem mem_keys_dictAdd (m : ScoreMap) (d : Nat) (v : ℚ) (x : Nat) :
    x ∈ keys (dictAdd m d v) ↔ x ∈ keys m ∨ x = d := by
  induction m with
  | nil => simp [dictAdd, keys]
  | cons e rest ih =>
    obtain ⟨k, s⟩ := e
    by_cases hkd : k = d
    · simp only [dictAdd, if_pos hkd, keys, List.map_cons, List.mem_cons]
      rw [hkd]
      simp only [keys] at *
      tauto
    · simp only [dictAdd, if_neg hkd, keys, List.map_cons, List.mem_cons] at *
      rw [ih]
      tauto

theorem nodup_keys_dictAdd (m : ScoreMap) (d : Nat) (v : ℚ)
    (h : (keys m).Nodup) : (keys (dictAdd m d v)).Nodup := by
  induction m with
  | nil => simp [dictAdd, keys]
  | cons e rest ih =>
    obtain ⟨k, s⟩ := e
    simp only [keys, List.map_cons, List.nodup_cons] at h
    by_cases hkd : k = d
    · simp only [dictAdd, if_pos hkd, keys, List.map_cons, List.nodup_cons]
      exact h
    · simp only [dictAdd, if_neg hkd, keys, List.map_cons, List.nodup_cons]
      refine ⟨?_, ih h.2⟩
      intro hmem
      have hmem2 := (mem_keys_dictAdd rest d v k).mp hmem
      rcases hmem2 with hmem2 | hmem2
      · exact h.1 hmem2
      · exact hkd hmem2

theorem keys_map_vals (m : ScoreMap) (f : Nat → ℚ → ℚ) :
    keys (m.map (fun e => (e.1, f e.1 e.2))) = keys m := by
  simp only [keys, List.map_map]
  rfl

theorem dictGet_map_vals (m : ScoreMap) (f : Nat → ℚ → ℚ) (d : Nat) :
    dictGet (m.map (fun e => (e.1, f e.1 e.2))) d = (dictGet m d).map (f d) := by
  induction m with
  | nil => rfl
  | cons e rest ih =>
    obtain ⟨k, s⟩ := e
    simp only [List.map_cons, dictGet]
    by_cases h : k = d
    · subst h; simp
    · simp [h, ih]

theorem dictGet_char (m : ScoreMap) (x : Nat) :
    dictGet m x = if x ∈ keys m then some (scoreD m x) else none := by
  induction m with
  | nil => simp [dictGet, keys]
  | cons e rest ih =>
    obtain ⟨k, s⟩ := e
    by_cases h : k = x
    · simp [dictGet, keys, scoreD, h]
    · have h2 : ¬ x = k := fun hh => h hh.symm
      have hd : dictGet ((k, s) :: rest) x = dictGet rest x := by simp [dictGet, h]
      have hs : scoreD ((k, s) :: rest) x = scoreD rest x := by simp only [scoreD, hd]
      have hmem : (x ∈ keys ((k, s) :: rest)) ↔ (x ∈ keys rest) := by
        simp [keys, h2]
      rw [hd, ih, hs]
      by_cases hm : x ∈ keys rest
      · rw [if_pos hm, if_pos (hmem.mpr hm)]
      · rw [if_neg hm, if_neg (fun hh => hm (hmem.mp hh))]

theorem dictGet_eq_none_iff (m : ScoreMap) (x : Nat) :
    dictGet m x = none ↔ x ∉ keys m := by
  rw [dictGet_char]
  by_cases h : x ∈ keys m <;> simp [h]

theorem pSum_cons (w : Nat → Nat → ℚ) (d : Nat) (p : Nat × Nat) (ps : List (Nat × Nat)) :
    pSum w d (p :: ps) = (if p.1 = d then w p.1 p.2 else 0) + pSum w d ps := by
  by_cases h : p.1 = d <;> simp [pSum, List.filter_cons, h]

theorem postingAccum_cons (w : Nat → Nat → ℚ) (m : ScoreMap) (p : Nat × Nat)
    (ps : List (Nat × Nat)) :
    postingAccum w m (p :: ps) =
      postingAccum w (if p.1 ≠ 0 then dictAdd m p.1 (w p.1 p.2) else m) ps := rfl

theorem scoreD_postingAccum (w : Nat → Nat → ℚ) (ps : List (Nat × Nat)) (m : ScoreMap)
    (x : Nat) (hx : x ≠ 0) :
    scoreD (postingAccum w m ps) x = scoreD m x + pSum w x ps := by
  induction ps generalizing m with
  | nil => simp [postingAccum, pSum]
  | cons p ps ih =>
    obtain ⟨pd, pc⟩ := p
    rw [postingAccum_cons, pSum_cons]
    by_cases hp0 : pd = 0
    · subst hp0
      rw [if_neg (by simp)]
      have hpx : ¬ (0 : Nat) = x := fun hh => hx hh.symm
      rw [ih m, if_neg hpx]
      ring
    · rw [if_pos (by simp [hp0]), ih]
      rw [scoreD_dictAdd]
      by_cases hpx : pd = x
      · rw [if_pos hpx.symm, if_pos hpx, hpx]
        ring
      · rw [if_neg (fun hh => hpx hh.symm), if_neg hpx]
        ring

theorem scoreD_postingAccum_zero (w : Nat → Nat → ℚ) (ps : List (Nat × Nat))
    (m : ScoreMap) :
    scoreD (postingAccum w m ps) 0 = scoreD m 0 := by
  induction ps generalizing m with
  | nil => rfl
  | cons p ps ih =>
    obtain ⟨pd, pc⟩ := p
    rw [postingAccum_cons]
    by_cases hp0 : pd = 0
    · rw [if_neg (by simp [hp0]), ih]
    · rw [if_pos (by simp [hp0]), ih, scoreD_dictAdd,
        if_neg (fun hh : (0 : Nat) = pd => hp0 hh.symm)]

theorem mem_keys_postingAccum (w : Nat → Nat → ℚ) (ps : List (Nat × Nat)) (m : ScoreMap)
    (x : Nat) :
    x ∈ keys (postingAccum w m ps) ↔ x ∈ keys m ∨ (x ≠ 0 ∧ x ∈ ps.map Prod.fst) := by
  induction ps generalizing m with
  | nil => simp [postingAccum]
  | cons p ps ih =>
    obtain ⟨pd, pc⟩ := p
    rw [postingAccum_cons]
    by_cases hp0 : pd = 0
    · subst hp0
      rw [if_neg (by simp), ih]
      simp only [List.map_cons, List.mem_cons]
      constructor
      · rintro (h | h)
        · exact Or.inl h
        · exact Or.inr ⟨h.1, Or.inr h.2⟩
      · rintro (h | ⟨hx, h0 | h⟩)
        · exact Or.inl h
        · exact absurd h0 hx
        · exact Or.inr ⟨hx, h⟩
    · rw [if_pos (by simp [hp0]), ih]
      simp only [List.map_cons, List.mem_cons]
      constructor
      · rintro (h | h)
        · rcases (mem_keys_dictAdd m pd (w pd pc) x).mp h with h2 | h2
          · exact Or.inl h2
          · exact Or.inr ⟨h2 ▸ hp0, Or.inl h2⟩
        · exact Or.inr ⟨h.1, Or.inr h.2⟩
      · rintro (h | ⟨hx, h0 | h⟩)
        · exact Or.inl ((mem_keys_dictAdd m pd (w pd pc) x).mpr (Or.inl h))
        · exact Or.inl ((mem_keys_dictAdd m pd (w pd pc) x).mpr (Or.inr h0))
        · exact Or.inr ⟨hx, h⟩

theorem nodup_keys_postingAccum (w : Nat → Nat → ℚ) (ps : List (Nat × Nat)) (m : ScoreMap)
    (h : (keys m).Nodup) : (keys (postingAccum w m ps)).Nodup := by
  induction ps generalizing m with
  | nil => exact h
  | cons p ps ih =>
    rw [postingAccum_cons]
    by_cases hp0 : p.1 ≠ 0
    · rw [if_pos hp0]
      exact ih _ (nodup_keys_dictAdd m p.1 _ h)
    · rw [if_neg hp0]
      exact ih m h

theorem termLoop_cons (index : Index) (w : String → Nat → Nat → Nat → ℚ) (m : ScoreMap)
    (it : String × Nat) (items : List (String × Nat)) :
    termLoop index w m (it :: items) =
      termLoop index w
        (if it.1 ∈ index.term_total then
          postingAccum (fun did wc => w it.1 it.2 did wc) m (read_posting_list index it.1)
        else m) items := rfl

theorem scoreD_termLoop (index : Index) (w : String → Nat → Nat → Nat → ℚ)
    (items : List (String × Nat)) (m : ScoreMap) (x : Nat) (hx : x ≠ 0) :
    scoreD (termLoop index w m items) x =
      scoreD m x +
        (items.map (fun it =>
          if it.1 ∈ index.term_total then
            pSum (fun did wc => w it.1 it.2 did wc) x (read_posting_list index it.1)
          else 0)).sum := by
  induction items generalizing m with
  | nil => simp [termLoop]
  | cons it items ih =>
    rw [termLoop_cons]
    by_cases hmem : it.1 ∈ index.term_total
    · rw [if_pos hmem, ih, scoreD_postingAccum _ _ _ _ hx]
      simp only [List.map_cons, List.sum_cons, if_pos hmem]
      ring
    · rw [if_neg hmem, ih]
      simp only [List.map_cons, List.sum_cons, if_neg hmem, zero_add]

theorem scoreD_termLoop_zero (index : Index) (w : String → Nat → Nat → Nat → ℚ)
    (items : List (String × Nat)) (m : ScoreMap) :
    scoreD (termLoop index w m items) 0 = scoreD m 0 := by
  induction items generalizing m with
  | nil => rfl
  | cons it items ih =>
    rw [termLoop_cons]
    by_cases hmem : it.1 ∈ index.term_total
    · rw [if_pos hmem, ih, scoreD_postingAccum_zero]
    · rw [if_neg hmem, ih]

theorem mem_keys_termLoop (index : Index) (w : String → Nat → Nat → Nat → ℚ)
    (items : List (String × Nat)) (m : ScoreMap) (x : Nat)
    (h : x ∈ keys (termLoop index w m items)) : x ∈ keys m ∨ x ≠ 0 := by
  induction items generalizing m with
  | nil => exact Or.inl h
  | cons it items ih =>
    rw [termLoop_cons] at h
    by_cases hmem : it.1 ∈ index.term_total
    · rw [if_pos hmem] at h
      rcases ih _ h with h2 | h2
      · rcases (mem_keys_postingAccum _ _ _ _).mp h2 with h3 | h3
        · exact Or.inl h3
        · exact Or.inr h3.1
      · exact Or.inr h2
    · rw [if_neg hmem] at h
      exact ih m h

theorem nodup_keys_termLoop (index : Index) (w : String → Nat → Nat → Nat → ℚ)
    (items : List (String × Nat)) (m : ScoreMap) (h : (keys m).Nodup) :
    (keys (termLoop index w m items)).Nodup := by
  induction items generalizing m with
  | nil => exact h
  | cons it items ih =>
    rw [termLoop_cons]
    by_cases hmem : it.1 ∈ index.term_total
    · rw [if_pos hmem]
      exact ih _ (nodup_keys_postingAccum _ _ _ h)
    · rw [if_neg hmem]
      exact ih m h

theorem termLoop_counterAdd_unknown (index : Index) (w : String → Nat → Nat → Nat → ℚ)
    (items : List (String × Nat)) (t : String) (ht : t ∉ index.term_total) :
    ∀ m, termLoop index w m (counterAdd items t) = termLoop index w m items := by
  induction items with
  | nil =>
    intro m
    simp [counterAdd, termLoop, ht]
  | cons it items ih =>
    intro m
    obtain ⟨k, c⟩ := it
    by_cases hkt : k = t
    · have hk : k ∉ index.term_total := by rw [hkt]; exact ht
      simp only [counterAdd, if_pos hkt]
      rw [termLoop_cons, termLoop_cons]
      simp only [if_neg hk]
    · simp only [counterAdd, if_neg hkt]
      rw [termLoop_cons, termLoop_cons]
      exact ih _

theorem counterItems_append (q : List String) (t : String) :
    counterItems (q ++ [t]) = counterAdd (counterItems q) t := by
  simp [counterItems, List.foldl_append]

theorem mem_fst_counterAdd (m : List (String × Nat)) (t : String) (x : String) :
    x ∈ (counterAdd m t).map Prod.fst ↔ x ∈ m.map Prod.fst ∨ x = t := by
  induction m with
  | nil => simp [counterAdd]
  | cons e rest ih =>
    obtain ⟨k, c⟩ := e
    by_cases hkt : k = t
    · simp only [counterAdd, if_pos hkt, List.map_cons, List.mem_cons]
      rw [hkt]
      tauto
    · simp only [counterAdd, if_neg hkt, List.map_cons, List.mem_cons, ih]
      tauto

theorem nodup_fst_counterAdd (m : List (String × Nat)) (t : String)
    (h : (m.map Prod.fst).Nodup) : ((counterAdd m t).map Prod.fst).Nodup := by
  induction m with
  | nil => simp [counterAdd]
  | cons e rest ih =>
    obtain ⟨k, c⟩ := e
    simp only [List.map_cons, List.nodup_cons] at h
    by_cases hkt : k = t
    · simp only [counterAdd, if_pos hkt, List.map_cons, List.nodup_cons]
      exact h
    · simp only [counterAdd, if_neg hkt, List.map_cons, List.nodup_cons]
      refine ⟨?_, ih h.2⟩
      intro hmem
      rcases (mem_fst_counterAdd rest t k).mp hmem with h2 | h2
      · exact h.1 h2
      · exact hkt h2

theorem mem_fst_counterItems_aux (q : List String) :
    ∀ (m : List (String × Nat)) (x : String),
      x ∈ ((q.foldl counterAdd m).map Prod.fst) ↔ x ∈ m.map Prod.fst ∨ x ∈ q := by
  induction q with
  | nil => intro m x; simp
  | cons a q ih =>
    intro m x
    simp only [List.foldl_cons, ih, mem_fst_counterAdd, List.mem_cons]
    tauto

theorem mem_fst_counterItems (q : List String) (x : String) :
    x ∈ (counterItems q).map Prod.fst ↔ x ∈ q := by
  rw [counterItems, mem_fst_counterItems_aux]
  simp

theorem nodup_fst_counterItems (q : List String) :
    ((counterItems q).map Prod.fst).Nodup := by
  have aux : ∀ (m : List (String × Nat)), (m.map Prod.fst).Nodup →
      ((q.foldl counterAdd m).map Prod.fst).Nodup := by
    induction q with
    | nil => intro m h; exact h
    | cons a q ih =>
      intro m h
      simp only [List.foldl_cons]
      exact ih _ (nodup_fst_counterAdd m a h)
  exact aux [] (by simp)

theorem sameScores_iff (m1 m2 : ScoreMap) :
    SameScores m1 m2 ↔
      ((∀ x, x ∈ keys m1 ↔ x ∈ keys m2) ∧ ∀ x, scoreD m1 x = scoreD m2 x) := by
  constructor
  · intro h
    refine ⟨fun x => ?_, fun x => ?_⟩
    · rw [← not_iff_not, ← dictGet_eq_none_iff, ← dictGet_eq_none_iff, h x]
    · simp only [scoreD, h x]
  · rintro ⟨hk, hs⟩ x
    rw [dictGet_char, dictGet_char, hs x]
    by_cases hm : x ∈ keys m1
    · rw [if_pos hm, if_pos ((hk x).mp hm)]
    · rw [if_neg hm, if_neg (fun hh => hm ((hk x).mpr hh))]

theorem mem_keys_keyStep (index : Index) (w2 : String → Nat → Nat → ℚ) (m : ScoreMap)
    (t : String) (x : Nat) :
    x ∈ keys (keyStep index w2 m t) ↔
      x ∈ keys m ∨
        (t ∈ index.term_total ∧ x ≠ 0 ∧ x ∈ (read_posting_list index t).map Prod.fst) := by
  by_cases hmem : t ∈ index.term_total
  · rw [keyStep, if_pos hmem, mem_keys_postingAccum]
    simp [hmem]
  · rw [keyStep, if_neg hmem]
    simp [hmem]

theorem scoreD_keyStep (index : Index) (w2 : String → Nat → Nat → ℚ) (m : ScoreMap)
    (t : String) (x : Nat) (hx : x ≠ 0) :
    scoreD (keyStep index w2 m t) x =
      scoreD m x +
        (if t ∈ index.term_total then pSum (fun did wc => w2 t did wc) x
          (read_posting_list index t) else 0) := by
  by_cases hmem : t ∈ index.term_total
  · rw [keyStep, if_pos hmem, if_pos hmem, scoreD_postingAccum _ _ _ _ hx]
  · rw [keyStep, if_neg hmem, if_neg hmem, add_zero]

theorem scoreD_keyStep_zero (index : Index) (w2 : String → Nat → Nat → ℚ) (m : ScoreMap)
    (t : String) :
    scoreD (keyStep index w2 m t) 0 = scoreD m 0 := by
  by_cases hmem : t ∈ index.term_total
  · rw [keyStep, if_pos hmem, scoreD_postingAccum_zero]
  · rw [keyStep, if_neg hmem]

theorem keyStep_congr (index : Index) (w2 : String → Nat → Nat → ℚ) (m1 m2 : ScoreMap)
    (t : String) (h : SameScores m1 m2) :
    SameScores (keyStep index w2 m1 t) (keyStep index w2 m2 t) := by
  obtain ⟨hk, hs⟩ := (sameScores_iff m1 m2).mp h
  rw [sameScores_iff]
  refine ⟨fun x => ?_, fun x => ?_⟩
  · rw [mem_keys_keyStep, mem_keys_keyStep, hk x]
  · by_cases hx : x = 0
    · rw [hx, scoreD_keyStep_zero, scoreD_keyStep_zero, hs 0]
    · rw [scoreD_keyStep _ _ _ _ _ hx, scoreD_keyStep _ _ _ _ _ hx, hs x]

theorem keyStep_swap (index : Index) (w2 : String → Nat → Nat → ℚ) (m : ScoreMap)
    (t1 t2 : String) :
    SameScores (keyStep index w2 (keyStep index w2 m t1) t2)
      (keyStep index w2 (keyStep index w2 m t2) t1) := by
  rw [sameScores_iff]
  refine ⟨fun x => ?_, fun x => ?_⟩
  · rw [mem_keys_keyStep, mem_keys_keyStep, mem_keys_keyStep, mem_keys_keyStep]
    tauto
  · by_cases hx : x = 0
    · rw [hx, scoreD_keyStep_zero, scoreD_keyStep_zero, scoreD_keyStep_zero,
        scoreD_keyStep_zero]
    · rw [scoreD_keyStep _ _ _ _ _ hx, scoreD_keyStep _ _ _ _ _ hx,
        scoreD_keyStep _ _ _ _ _ hx, scoreD_keyStep _ _ _ _ _ hx]
      ring

theorem keyLoop_cons (index : Index) (w2 : String → Nat → Nat → ℚ) (m : ScoreMap)
    (t : String) (ts : List String) :
    keyLoop index w2 m (t :: ts) = keyLoop index w2 (keyStep index w2 m t) ts := rfl

theorem keyLoop_congr (index : Index) (w2 : String → Nat → Nat → ℚ) (ts : List String) :
    ∀ m1 m2, SameScores m1 m2 →
      SameScores (keyLoop index w2 m1 ts) (keyLoop index w2 m2 ts) := by
  induction ts with
  | nil => intro m1 m2 h; exact h
  | cons t ts ih =>
    intro m1 m2 h
    rw [keyLoop_cons, keyLoop_cons]
    exact ih _ _ (keyStep_congr index w2 m1 m2 t h)

theorem keyLoop_perm (index : Index) (w2 : String → Nat → Nat → ℚ)
    {ts1 ts2 : List String} (h : ts1.Perm ts2) :
    ∀ m, SameScores (keyLoop index w2 m ts1) (keyLoop index w2 m ts2) := by
  induction h with
  | nil => intro m x; rfl
  | cons t p ih =>
    intro m
    rw [keyLoop_cons, keyLoop_cons]
    exact ih (keyStep index w2 m t)
  | swap t1 t2 l =>
    intro m
    rw [keyLoop_cons, keyLoop_cons, keyLoop_cons, keyLoop_cons]
    exact keyLoop_congr index w2 l _ _ (keyStep_swap index w2 m t2 t1)
  | trans p1 p2 ih1 ih2 =>
    intro m x
    exact (ih1 m x).trans (ih2 m x)

theorem termLoop_eq_keyLoop (index : Index) (w : String → Nat → Nat → Nat → ℚ)
    (w2 : String → Nat → Nat → ℚ) (hw : ∀ t c did wc, w t c did wc = w2 t did wc) :
    ∀ (items : List (String × Nat)) (m : ScoreMap),
      termLoop index w m items = keyLoop index w2 m (items.map Prod.fst) := by
  intro items
  induction items with
  | nil => intro m; rfl
  | cons it items ih =>
    intro m
    rw [termLoop_cons, List.map_cons, keyLoop_cons]
    have hfun : (fun did wc => w it.1 it.2 did wc) = fun did wc => w2 it.1 did wc := by
      funext did wc
      exact hw it.1 it.2 did wc
    by_cases hmem : it.1 ∈ index.term_total
    · rw [if_pos hmem, keyStep, if_pos hmem, hfun]
      exact ih _
    · rw [if_neg hmem, keyStep, if_neg hmem]
      exact ih _

theorem calc_BM25_eq_termLoop (ln : ℚ → ℚ) (q_tokens : List String) (index : Index)
    (corpus_docs avg_dl k b : ℚ) :
    calc_BM25 ln q_tokens index corpus_docs avg_dl k b =
      termLoop index (fun t _ did wc => bm25_weight ln index corpus_docs avg_dl k b t did wc)
        [] (counterItems q_tokens) := by
  rw [calc_BM25, termLoop]
  apply List.foldl_ext
  intro acc it _
  by_cases hmem : it.1 ∈ index.term_total
  · simp only [if_pos hmem]
    rfl
  · simp only [if_neg hmem]

theorem calc_BM25_eq_keyLoop (ln : ℚ → ℚ) (q_tokens : List String) (index : Index)
    (corpus_docs avg_dl k b : ℚ) :
    calc_BM25 ln q_tokens index corpus_docs avg_dl k b =
      keyLoop index (bm25_weight ln index corpus_docs avg_dl k b) []
        ((counterItems q_tokens).map Prod.fst) := by
  rw [calc_BM25_eq_termLoop,
    termLoop_eq_keyLoop index _ (bm25_weight ln index corpus_docs avg_dl k b)
      (fun t c did wc => rfl)]

theorem scoreD_map_vals (m : ScoreMap) (f : Nat → ℚ → ℚ) (d : Nat) (hf : f d 0 = 0) :
    scoreD (m.map (fun e => (e.1, f e.1 e.2))) d = f d (scoreD m d) := by
  simp only [scoreD, dictGet_map_vals]
  cases h : dictGet m d <;> simp [hf]

theorem scoreD_of_mem_nodup (m : ScoreMap) (d : Nat) (s : ℚ)
    (hnd : (keys m).Nodup) (hmem : (d, s) ∈ m) : scoreD m d = s := by
  induction m with
  | nil => cases hmem
  | cons e rest ih =>
    obtain ⟨k, v⟩ := e
    simp only [keys, List.map_cons, List.nodup_cons] at hnd
    rcases List.mem_cons.mp hmem with h | h
    · obtain ⟨hk, hv⟩ := Prod.ext_iff.mp h
      simp only [] at hk hv
      simp [scoreD, dictGet, hk.symm, hv]
    · have hkd : ¬ k = d := by
        intro hh
        apply hnd.1
        rw [hh]
        exact List.mem_map.mpr ⟨(d, s), h, rfl⟩
      have : scoreD ((k, v) :: rest) d = scoreD rest d := by
        simp [scoreD, dictGet, hkd]
      rw [this]
      exact ih hnd.2 h

theorem byScoreDesc_trans (a b c : Nat × ℚ)
    (h1 : byScoreDesc a b = true) (h2 : byScoreDesc b c = true) :
    byScoreDesc a c = true := by
  simp only [byScoreDesc, decide_eq_true_eq] at *
  exact h2.trans h1

theorem byScoreDesc_total (a b : Nat × ℚ) :
    (byScoreDesc a b || byScoreDesc b a) = true := by
  simp only [byScoreDesc]
  rcases le_total a.2 b.2 with h | h <;> simp [h]

theorem sortedKeys_perm (m : ScoreMap) : (sortedKeys m).Perm (keys m) :=
  List.Perm.map Prod.fst (List.mergeSort_perm m byScoreDesc)

theorem sortedKeys_pairwise (m : ScoreMap) (hnd : (keys m).Nodup) :
    (sortedKeys m).Pairwise (fun a b => scoreD m b ≤ scoreD m a) := by
  have hsorted : (m.mergeSort byScoreDesc).Pairwise (fun a b => byScoreDesc a b = true) :=
    List.sorted_mergeSort byScoreDesc_trans byScoreDesc_total m
  have hmem : ∀ p, p ∈ m.mergeSort byScoreDesc → scoreD m p.1 = p.2 := by
    intro p hp
    exact scoreD_of_mem_nodup m p.1 p.2 hnd
      ((List.mergeSort_perm m byScoreDesc).mem_iff.mp hp)
  have hpw : (m.mergeSort byScoreDesc).Pairwise
      (fun a b => scoreD m b.1 ≤ scoreD m a.1) := by
    refine hsorted.imp_of_mem ?_
    intro a b ha hb hab
    rw [hmem a ha, hmem b hb]
    simpa [byScoreDesc, decide_eq_true_eq] using hab
  exact List.pairwise_map.mpr hpw

theorem sortedKeys_length (m : ScoreMap) : (sortedKeys m).length = m.length := by
  rw [sortedKeys, List.length_map, (List.mergeSort_perm m byScoreDesc).length_eq]

theorem mem_topN (m : ScoreMap) (N : Nat) (d : Nat) (h : d ∈ topN m N) : d ∈ keys m := by
  rw [topN] at h
  by_cases hlen : N < m.length
  · rw [if_pos hlen] at h
    exact (sortedKeys_perm m).mem_iff.mp
      (List.Sublist.mem h (List.take_sublist N (sortedKeys m)))
  · rw [if_neg hlen] at h
    exact (sortedKeys_perm m).mem_iff.mp h

theorem topN_pairwise (m : ScoreMap) (N : Nat) (hnd : (keys m).Nodup) :
    (topN m N).Pairwise (fun a b => scoreD m b ≤ scoreD m a) := by
  rw [topN]
  by_cases hlen : N < m.length
  · rw [if_pos hlen]
    exact List.Pairwise.sublist (List.take_sublist N (sortedKeys m))
      (sortedKeys_pairwise m hnd)
  · rw [if_neg hlen]
    exact sortedKeys_pairwise m hnd

theorem keys_OPT_Tfidf_sim (log10 : ℚ → ℚ) (q_tokens : List String) (index : Index)
    (corpus_docs : ℚ) :
    keys (OPT_Tfidf_sim log10 q_tokens index corpus_docs) =
      keys (tfidf_accum log10 q_tokens index corpus_docs) :=
  keys_map_vals _ (fun k s => s * (1 / (q_tokens.length : ℚ)) * (1 / index.DL k))

theorem scoreD_OPT_Tfidf_sim (log10 : ℚ → ℚ) (q_tokens : List String) (index : Index)
    (corpus_docs : ℚ) (d : Nat) :
    scoreD (OPT_Tfidf_sim log10 q_tokens index corpus_docs) d =
      scoreD (tfidf_accum log10 q_tokens index corpus_docs) d *
        (1 / (q_tokens.length : ℚ)) * (1 / index.DL d) :=
  scoreD_map_vals _ (fun k s => s * (1 / (q_tokens.length : ℚ)) * (1 / index.DL k)) d
    (by ring)

theorem keys_OPT_Cosine_sim (sqrt : ℚ → ℚ) (q_tokens : List String) (index : Index) :
    keys (OPT_Cosine_sim sqrt q_tokens index) = keys (cosine_accum q_tokens index) :=
  keys_map_vals _
    (fun k s => s *
      (1 / normL2 sqrt ((counterItems q_tokens).map
        (fun item => (item.2 : ℚ) / (q_tokens.length : ℚ)))) * (1 / index.docs_norm k))

theorem scoreD_OPT_Cosine_sim (sqrt : ℚ → ℚ) (q_tokens : List String) (index : Index)
    (d : Nat) :
    scoreD (OPT_Cosine_sim sqrt q_tokens index) d =
      scoreD (cosine_accum q_tokens index) d *
        (1 / normL2 sqrt ((counterItems q_tokens).map
          (fun item => (item.2 : ℚ) / (q_tokens.length : ℚ)))) *
        (1 / index.docs_norm d) :=
  scoreD_map_vals _
    (fun k s => s *
      (1 / normL2 sqrt ((counterItems q_tokens).map
        (fun item => (item.2 : ℚ) / (q_tokens.length : ℚ)))) * (1 / index.docs_norm k)) d
    (by ring)

theorem zero_not_mem_keys_termLoop (index : Index) (w : String → Nat → Nat → Nat → ℚ)
    (items : List (String × Nat)) :
    0 ∉ keys (termLoop index w [] items) := by
  intro h
  rcases mem_keys_termLoop index w items [] 0 h with h2 | h2
  · simp [keys] at h2
  · exact h2 rfl

theorem nodup_keys_tfidf_accum (log10 : ℚ → ℚ) (q_tokens : List String) (index : Index)
    (corpus_docs : ℚ) :
    (keys (tfidf_accum log10 q_tokens index corpus_docs)).Nodup :=
  nodup_keys_termLoop index _ _ [] (by simp [keys])

theorem nodup_keys_cosine_accum (q_tokens : List String) (index : Index) :
    (keys (cosine_accum q_tokens index)).Nodup :=
  nodup_keys_termLoop index _ _ [] (by simp [keys])

theorem nodup_keys_calc_BM25 (ln : ℚ → ℚ) (q_tokens : List String) (index : Index)
    (corpus_docs avg_dl k b : ℚ) :
    (keys (calc_BM25 ln q_tokens index corpus_docs avg_dl k b)).Nodup := by
  rw [calc_BM25_eq_termLoop]
  exact nodup_keys_termLoop index _ _ [] (by simp [keys])

/-- C1: `calc_BM25` itself honours the supplied `k`, `b` (here `k = 0`
scores `(5, 22/3)` with `ln` read as the identity), but `opt_BM25_for_joint`
called with the same `k = 0` returns `(5, 176/15)` — the score computed
with the defaults `k = 3`, `b = 0.25`, because `opt_BM25` and
`opt_BM25_for_joint` never forward `k` and `b` to `calc_BM25`. -/
theorem claim_C1_k_b_not_forwarded :
    calc_BM25 (fun x => x) ["cat"] catIdx 10 100 0 (1/4) = [(5, 22/3)] ∧
      calc_BM25 (fun x => x) ["cat"] catIdx 10 100 3 (1/4) = [(5, 176/15)] ∧
      opt_BM25_for_joint (fun x => x) ["cat"] catIdx 10 100 0 (1/4) 100 = [(5, 176/15)] ∧
      (176/15 : ℚ) ≠ 22/3 := by
  refine ⟨?_, ?_, ?_, by norm_num⟩
  · simp [calc_BM25, counterItems, counterAdd, catIdx, postingAccum, read_posting_list,
      reader_read, pySlice, intFromBytes, dictAdd, List.range_succ]
    norm_num
  · simp [calc_BM25, counterItems, counterAdd, catIdx, postingAccum, read_posting_list,
      reader_read, pySlice, intFromBytes, dictAdd, List.range_succ]
    norm_num
  · simp [opt_BM25_for_joint, calc_BM25, counterItems, counterAdd, catIdx, postingAccum,
      read_posting_list, reader_read, pySlice, intFromBytes, dictAdd, List.range_succ,
      topN, sortedKeys, byScoreDesc, List.mergeSort, scoreD, dictGet]
    norm_num

/-- C2: no `TruncatedPostingData` error exists in the code: with term `w`
of document frequency 1 and a byte store shorter than 6 bytes, the
decoder silently returns the zero-padded posting `[(0, 0)]`, and the
scoring models then drop it through the doc-id-0 filter, so the term's
contribution vanishes without any signal. -/
theorem claim_C2_truncation_silently_zero_pads :
    read_posting_list truncIdx "w" = [(0, 0)] ∧
      OPT_Tfidf_sim (fun _ => 1) ["w"] truncIdx 10 = [] := by
  exact ⟨rfl, rfl⟩

/-- C3 counterexample: on the empty query every ranking function returns
the empty result list — none of them surfaces an error instead of
returning a result as the claim states. -/
theorem claim_C3_counterexample :
    OPT_Tfidf (fun _ => 1) [] abIdx 10 100 = [] ∧
      opt_BM25 (fun _ => 1) [] abIdx 10 100 3 (1/4) 100 = [] ∧
      opt_BM25_for_joint (fun _ => 1) [] abIdx 10 100 3 (1/4) 100 = [] ∧
      OPT_Cosine (fun _ => 1) [] abIdx 100 = [] := by
  refine ⟨?_, ?_, ?_, ?_⟩ <;>
    simp [OPT_Tfidf, OPT_Tfidf_sim, tfidf_accum, opt_BM25, opt_BM25_for_joint, calc_BM25,
      OPT_Cosine, OPT_Cosine_sim, cosine_accum, counterItems, termLoop, topN, sortedKeys]

/-- C3 amended: for the empty query every ranking function returns an
empty result with no error; no division by zero is reached because the
final normalization pass iterates over an empty score dictionary. -/
theorem claim_C3_empty_query_returns_empty (log10 ln sqrt : ℚ → ℚ) (index : Index)
    (corpus_docs avg_dl k b : ℚ) (N : Nat) :
    OPT_Tfidf log10 [] index corpus_docs N = [] ∧
      OPT_Tfidf_sim log10 [] index corpus_docs = [] ∧
      calc_BM25 ln [] index corpus_docs avg_dl k b = [] ∧
      opt_BM25 ln [] index corpus_docs avg_dl k b N = [] ∧
      opt_BM25_for_joint ln [] index corpus_docs avg_dl k b N = [] ∧
      OPT_Cosine_sim sqrt [] index = [] ∧
      OPT_Cosine sqrt [] index N = [] := by
  refine ⟨?_, ?_, ?_, ?_, ?_, ?_, ?_⟩ <;>
    simp [OPT_Tfidf, OPT_Tfidf_sim, tfidf_accum, opt_BM25, opt_BM25_for_joint, calc_BM25,
      OPT_Cosine, OPT_Cosine_sim, cosine_accum, counterItems, termLoop, topN, sortedKeys]

/-- C8 counterexample: appending the out-of-vocabulary term `z` to the
query `["a"]` changes the TF-IDF score dictionary (the score of document
5 halves from 2 to 1), because `query_size` counts the unknown token in
the final normalization pass. -/
theorem claim_C8_counterexample :
    ("z" ∉ abIdx.term_total) ∧
      OPT_Tfidf_sim (fun _ => 1) ["a", "z"] abIdx 10 ≠
        OPT_Tfidf_sim (fun _ => 1) ["a"] abIdx 10 := by
  constructor
  · decide
  · have h1 : OPT_Tfidf_sim (fun _ => (1:ℚ)) ["a", "z"] abIdx 10 = [(5, 1)] := by
      simp [OPT_Tfidf_sim, tfidf_accum, counterItems, counterAdd, abIdx, termLoop,
        postingAccum, read_posting_list, reader_read, pySlice, intFromBytes, dictAdd,
        List.range_succ]
    have h2 : OPT_Tfidf_sim (fun _ => (1:ℚ)) ["a"] abIdx 10 = [(5, 2)] := by
      simp [OPT_Tfidf_sim, tfidf_accum, counterItems, counterAdd, abIdx, termLoop,
        postingAccum, read_posting_list, reader_read, pySlice, intFromBytes, dictAdd,
        List.range_succ]
    rw [h1, h2]
    intro h
    have := List.head_eq_of_cons_eq h
    simp at this

/-- C8 amended: an out-of-vocabulary query term contributes nothing to the
accumulation stage of any model — appending it leaves the BM25 score
dictionary and the TF-IDF and cosine accumulators literally unchanged —
although the final TF-IDF and cosine normalization passes do observe it
through `query_size` and `query_norm`. -/
theorem claim_C8_unknown_term_accumulation (log10 ln : ℚ → ℚ) (q_tokens : List String)
    (t : String) (index : Index) (corpus_docs avg_dl k b : ℚ)
    (ht : t ∉ index.term_total) :
    calc_BM25 ln (q_tokens ++ [t]) index corpus_docs avg_dl k b
        = calc_BM25 ln q_tokens index corpus_docs avg_dl k b ∧
      tfidf_accum log10 (q_tokens ++ [t]) index corpus_docs
        = tfidf_accum log10 q_tokens index corpus_docs ∧
      cosine_accum (q_tokens ++ [t]) index = cosine_accum q_tokens index := by
  refine ⟨?_, ?_, ?_⟩
  · rw [calc_BM25_eq_termLoop, calc_BM25_eq_termLoop, counterItems_append,
      termLoop_counterAdd_unknown index _ _ t ht]
  · rw [tfidf_accum, tfidf_accum, counterItems_append,
      termLoop_counterAdd_unknown index _ _ t ht]
  · rw [cosine_accum, cosine_accum, counterItems_append,
      termLoop_counterAdd_unknown index _ _ t ht]

/-- C8 witness: the amended statement evaluated for query `["a"]`, unknown
term `z` and the two-term index. -/
theorem claim_C8_witness :
    ("z" ∉ abIdx.term_total) ∧
      (calc_BM25 (fun x => x) (["a"] ++ ["z"]) abIdx 10 100 3 (1/4)
          = calc_BM25 (fun x => x) ["a"] abIdx 10 100 3 (1/4) ∧
        tfidf_accum (fun x => x) (["a"] ++ ["z"]) abIdx 10
          = tfidf_accum (fun x => x) ["a"] abIdx 10 ∧
        cosine_accum (["a"] ++ ["z"]) abIdx = cosine_accum ["a"] abIdx) :=
  ⟨by decide,
    claim_C8_unknown_term_accumulation (fun x => x) (fun x => x) ["a"] "z" abIdx 10 100 3
      (1/4) (by decide)⟩

/-- C9: the sentinel document id 0 is never a key of any model's score
dictionary and never appears in any model's returned ranking, for every
query, index and parameters — even when a posting list decodes an entry
with document id 0, the `doc_id != 0` guard drops it before insertion. -/
theorem claim_C9_sentinel_never_output (log10 ln sqrt : ℚ → ℚ) (q_tokens : List String)
    (index : Index) (corpus_docs avg_dl k b : ℚ) (N : Nat) :
    0 ∉ keys (OPT_Tfidf_sim log10 q_tokens index corpus_docs) ∧
      0 ∉ OPT_Tfidf log10 q_tokens index corpus_docs N ∧
      0 ∉ keys (calc_BM25 ln q_tokens index corpus_docs avg_dl k b) ∧
      0 ∉ opt_BM25 ln q_tokens index corpus_docs avg_dl k b N ∧
      0 ∉ (opt_BM25_for_joint ln q_tokens index corpus_docs avg_dl k b N).map Prod.fst ∧
      0 ∉ keys (OPT_Cosine_sim sqrt q_tokens index) ∧
      0 ∉ OPT_Cosine sqrt q_tokens index N := by
  have htf : 0 ∉ keys (OPT_Tfidf_sim log10 q_tokens index corpus_docs) := by
    rw [keys_OPT_Tfidf_sim, tfidf_accum]
    exact zero_not_mem_keys_termLoop index _ _
  have hbm : ∀ k2 b2 : ℚ,
      0 ∉ keys (calc_BM25 ln q_tokens index corpus_docs avg_dl k2 b2) := by
    intro k2 b2
    rw [calc_BM25_eq_termLoop]
    exact zero_not_mem_keys_termLoop index _ _
  have hcs : 0 ∉ keys (OPT_Cosine_sim sqrt q_tokens index) := by
    rw [keys_OPT_Cosine_sim, cosine_accum]
    exact zero_not_mem_keys_termLoop index _ _
  refine ⟨htf, ?_, hbm k b, ?_, ?_, hcs, ?_⟩
  · intro h
    exact htf (mem_topN _ _ _ h)
  · intro h
    exact hbm 3 (1/4) (mem_topN _ _ _ h)
  · intro h
    have h2 : 0 ∈ topN (calc_BM25 ln q_tokens index corpus_docs avg_dl 3 (1/4)) N := by
      simpa [opt_BM25_for_joint, List.map_map, Function.comp] using h
    exact hbm 3 (1/4) (mem_topN _ _ _ h2)
  · intro h
    exact hcs (mem_topN _ _ _ h)

/-- C10: BM25 scores depend only on the set of distinct query tokens —
two queries with the same token set (counts and order ignored) produce
score dictionaries that agree on every document, because `calc_BM25`
discards the per-query occurrence count of each term. -/
theorem claim_C10_bm25_distinct_tokens (ln : ℚ → ℚ) (q1 q2 : List String) (index : Index)
    (corpus_docs avg_dl k b : ℚ) (h : q1.toFinset = q2.toFinset) :
    ∀ d, dictGet (calc_BM25 ln q1 index corpus_docs avg_dl k b) d
        = dictGet (calc_BM25 ln q2 index corpus_docs avg_dl k b) d := by
  have hmem : ∀ a, a ∈ q1 ↔ a ∈ q2 := by
    intro a
    rw [← List.mem_toFinset, ← List.mem_toFinset, h]
  have hperm : ((counterItems q1).map Prod.fst).Perm ((counterItems q2).map Prod.fst) := by
    rw [List.perm_ext_iff_of_nodup (nodup_fst_counterItems q1) (nodup_fst_counterItems q2)]
    intro a
    rw [mem_fst_counterItems, mem_fst_counterItems]
    exact hmem a
  intro d
  rw [calc_BM25_eq_keyLoop, calc_BM25_eq_keyLoop]
  exact keyLoop_perm index _ hperm [] d

/-- C10 witness: the queries `["b", "a", "a"]` and `["a", "b"]` have the
same token set and give document 5 the same BM25 score. -/
theorem claim_C10_witness :
    (["b", "a", "a"].toFinset = ["a", "b"].toFinset) ∧
      dictGet (calc_BM25 (fun x => x) ["b", "a", "a"] abIdx 10 100 3 (1/4)) 5
        = dictGet (calc_BM25 (fun x => x) ["a", "b"] abIdx 10 100 3 (1/4)) 5 :=
  ⟨by decide,
    claim_C10_bm25_distinct_tokens (fun x => x) ["b", "a", "a"] ["a", "b"] abIdx 10 100 3
      (1/4) (by decide) 5⟩

/-- C4: for every non-empty query and every index, the TF-IDF score of a
document `d ≠ 0` is the sum, over the known query terms and their decoded
postings with doc id `d`, of `query_word_count * word_count *
log10(corpus_docs / df)`, multiplied by `1 / |query tokens|` and
`1 / DL[d]`; and on the spec's worked example (query `["cat", "cat"]`,
`corpus_docs = 10`, `df = 2`, posting `(7, 3)`, `DL[7] = 50`) the final
score of document 7 is `2 * (3 * log10 5) * (1/2) * (1/50)`. -/
theorem claim_C4_tfidf_formula (log10 : ℚ → ℚ) (q_tokens : List String) (index : Index)
    (corpus_docs : ℚ) (d : Nat) (hq : q_tokens ≠ []) (hd : d ≠ 0) :
    scoreD (OPT_Tfidf_sim log10 q_tokens index corpus_docs) d =
      ((counterItems q_tokens).map (fun it =>
        if it.1 ∈ index.term_total then
          (((read_posting_list index it.1).filter (fun p => decide (p.1 = d))).map
            (fun p => (it.2 : ℚ) *
              ((p.2 : ℚ) * log10 (corpus_docs / (index.df it.1 : ℚ))))).sum
        else 0)).sum * (1 / (q_tokens.length : ℚ)) * (1 / index.DL d) ∧
      scoreD (OPT_Tfidf_sim log10 ["cat", "cat"] tfidfExampleIdx 10) 7 =
        2 * (3 * log10 (10 / 2)) * (1 / 2) * (1 / 50) := by
  constructor
  · rw [scoreD_OPT_Tfidf_sim, tfidf_accum,
      scoreD_termLoop index _ (counterItems q_tokens) [] d hd]
    rw [show scoreD ([] : ScoreMap) d = 0 from rfl, zero_add]
    rfl
  · simp [OPT_Tfidf_sim, tfidf_accum, counterItems, counterAdd, tfidfExampleIdx, termLoop,
      postingAccum, read_posting_list, reader_read, pySlice, intFromBytes, dictAdd,
      List.range_succ, scoreD, dictGet]

/-- C4 witness: the characterization evaluated on the worked example with
`log10` read as the constant-one function. -/
theorem claim_C4_witness :
    ((["cat", "cat"] : List String) ≠ []) ∧ ((7 : Nat) ≠ 0) ∧
      (scoreD (OPT_Tfidf_sim (fun _ => (1:ℚ)) ["cat", "cat"] tfidfExampleIdx 10) 7 =
        ((counterItems ["cat", "cat"]).map (fun it =>
          if it.1 ∈ tfidfExampleIdx.term_total then
            (((read_posting_list tfidfExampleIdx it.1).filter
                (fun p => decide (p.1 = 7))).map
              (fun p => (it.2 : ℚ) * ((p.2 : ℚ) *
                (fun _ => (1:ℚ)) (10 / (tfidfExampleIdx.df it.1 : ℚ))))).sum
          else 0)).sum * (1 / ((["cat", "cat"] : List String).length : ℚ)) *
          (1 / tfidfExampleIdx.DL 7) ∧
        scoreD (OPT_Tfidf_sim (fun _ => (1:ℚ)) ["cat", "cat"] tfidfExampleIdx 10) 7 =
          2 * (3 * (fun _ => (1:ℚ)) ((10:ℚ) / 2)) * (1 / 2) * (1 / 50)) :=
  ⟨by decide, by decide,
    claim_C4_tfidf_formula (fun _ => (1:ℚ)) ["cat", "cat"] tfidfExampleIdx 10 7
      (by decide) (by decide)⟩

/-- C5: for every non-empty query and every index, the cosine score of a
document `d ≠ 0` is the sum of `word_count * query_word_count` over the
known query terms and their postings with doc id `d` (no IDF factor),
multiplied by `1 / query_norm` — where `query_norm` is the square root of
the sum of squares of `count / |query tokens|` over distinct terms — and
by `1 / docs_norm[d]`. -/
theorem claim_C5_cosine_formula (sqrt : ℚ → ℚ) (q_tokens : List String) (index : Index)
    (d : Nat) (hq : q_tokens ≠ []) (hd : d ≠ 0) :
    scoreD (OPT_Cosine_sim sqrt q_tokens index) d =
      ((counterItems q_tokens).map (fun it =>
        if it.1 ∈ index.term_total then
          (((read_posting_list index it.1).filter (fun p => decide (p.1 = d))).map
            (fun p => (p.2 : ℚ) * (it.2 : ℚ))).sum
        else 0)).sum *
        (1 / sqrt ((((counterItems q_tokens).map
          (fun item => (item.2 : ℚ) / (q_tokens.length : ℚ))).map
            (fun x => x ^ 2)).sum)) *
        (1 / index.docs_norm d) := by
  rw [scoreD_OPT_Cosine_sim, cosine_accum,
    scoreD_termLoop index _ (counterItems q_tokens) [] d hd]
  rw [show scoreD ([] : ScoreMap) d = 0 from rfl, zero_add]
  rfl

/-- C5 witness: the cosine characterization evaluated on the query `["a"]`
over the two-term index with `sqrt` read as the identity. -/
theorem claim_C5_witness :
    ((["a"] : List String) ≠ []) ∧ ((5 : Nat) ≠ 0) ∧
      scoreD (OPT_Cosine_sim (fun x => x) ["a"] abIdx) 5 =
        ((counterItems ["a"]).map (fun it =>
          if it.1 ∈ abIdx.term_total then
            (((read_posting_list abIdx it.1).filter (fun p => decide (p.1 = 5))).map
              (fun p => (p.2 : ℚ) * (it.2 : ℚ))).sum
          else 0)).sum *
          (1 / (fun x => x) ((((counterItems ["a"]).map
            (fun item => (item.2 : ℚ) / ((["a"] : List String).length : ℚ))).map
              (fun x => x ^ 2)).sum)) *
          (1 / abIdx.docs_norm 5) :=
  ⟨by decide, by decide,
    claim_C5_cosine_formula (fun x => x) ["a"] abIdx 5 (by decide) (by decide)⟩

theorem pySlice_take (b : List Nat) (n i j : Nat) (h : j ≤ n) :
    pySlice (b.take n) i j = pySlice b i j := by
  rw [pySlice, pySlice, List.drop_take, List.take_take]
  congr 1
  omega

/-- C6: when the store holds at least `df(w) * 6` bytes, the decoder
returns exactly `df(w)` entries; entry `i` decodes its doc id from bytes
`[6i, 6i+4)` and its term frequency from bytes `[6i+4, 6i+6)` of the
stored sequence, read big-endian base 256 (bounded by `2^32` for byte
values); and appending trailing bytes beyond `df(w) * 6` never changes
the result, since only `df(w) * 6` bytes are requested. -/
theorem claim_C6_codec (index : Index) (w : String)
    (h : index.df w * 6 ≤ (index.posting_bytes w).length) :
    (read_posting_list index w).length = index.df w ∧
      (∀ i, i < index.df w →
        (read_posting_list index w)[i]? =
          some (intFromBytes (pySlice (index.posting_bytes w) (i * 6) (i * 6 + 4)),
                intFromBytes (pySlice (index.posting_bytes w) (i * 6 + 4) ((i + 1) * 6)))) ∧
      (∀ extra : List Nat,
        read_posting_list
          { index with posting_bytes :=
              fun v => if v = w then index.posting_bytes v ++ extra
                       else index.posting_bytes v } w =
          read_posting_list index w) ∧
      (∀ b0 b1 b2 b3 : Nat,
        intFromBytes [b0, b1, b2, b3] = ((b0 * 256 + b1) * 256 + b2) * 256 + b3) ∧
      (∀ b0 b1 : Nat, intFromBytes [b0, b1] = b0 * 256 + b1) ∧
      (∀ b0 b1 b2 b3 : Nat, b0 < 256 → b1 < 256 → b2 < 256 → b3 < 256 →
        intFromBytes [b0, b1, b2, b3] < 2 ^ 32) := by
  refine ⟨?_, ?_, ?_, ?_, ?_, ?_⟩
  · simp [read_posting_list, List.length_range]
  · intro i hi
    have h4 : i * 6 + 4 ≤ index.df w * 6 := by omega
    have h6 : (i + 1) * 6 ≤ index.df w * 6 := by omega
    simp only [read_posting_list, reader_read, List.getElem?_map, List.getElem?_range hi,
      Option.map_some']
    rw [pySlice_take _ _ _ _ h4, pySlice_take _ _ _ _ h6]
  · intro extra
    have htake : (index.posting_bytes w ++ extra).take (index.df w * 6) =
        (index.posting_bytes w).take (index.df w * 6) :=
      List.take_append_of_le_length h
    simp [read_posting_list, reader_read, htake]
  · intro b0 b1 b2 b3
    simp [intFromBytes]
  · intro b0 b1
    simp [intFromBytes]
  · intro b0 b1 b2 b3 h0 h1 h2 h3
    simp only [intFromBytes, List.foldl_cons, List.foldl_nil]
    omega

/-- C6 witness: the codec contract evaluated on the one-posting index. -/
theorem claim_C6_witness :
    (catIdx.df "cat" * 6 ≤ (catIdx.posting_bytes "cat").length) ∧
      ((read_posting_list catIdx "cat").length = catIdx.df "cat" ∧
        (∀ i, i < catIdx.df "cat" →
          (read_posting_list catIdx "cat")[i]? =
            some (intFromBytes (pySlice (catIdx.posting_bytes "cat") (i * 6) (i * 6 + 4)),
                  intFromBytes
                    (pySlice (catIdx.posting_bytes "cat") (i * 6 + 4) ((i + 1) * 6)))) ∧
        (∀ extra : List Nat,
          read_posting_list
            { catIdx with posting_bytes :=
                fun v => if v = "cat" then catIdx.posting_bytes v ++ extra
                         else catIdx.posting_bytes v } "cat" =
            read_posting_list catIdx "cat") ∧
        (∀ b0 b1 b2 b3 : Nat,
          intFromBytes [b0, b1, b2, b3] = ((b0 * 256 + b1) * 256 + b2) * 256 + b3) ∧
        (∀ b0 b1 : Nat, intFromBytes [b0, b1] = b0 * 256 + b1) ∧
        (∀ b0 b1 b2 b3 : Nat, b0 < 256 → b1 < 256 → b2 < 256 → b3 < 256 →
          intFromBytes [b0, b1, b2, b3] < 2 ^ 32)) :=
  ⟨by decide, claim_C6_codec catIdx "cat" (by decide)⟩

/-- C7: for every score dictionary (with the dict invariant of distinct
keys) and every `N`: when the dictionary has at most `N` entries the
ranking is a permutation of all its keys; otherwise it has exactly `N`
entries; in both cases it is sorted by descending score, and every
returned document scores at least as high as every non-returned one. -/
theorem claim_C7_topN_selector (m : ScoreMap) (N : Nat) (hnd : (keys m).Nodup) :
    (m.length ≤ N → (topN m N).Perm (keys m)) ∧
      (N < m.length → (topN m N).length = N) ∧
      (topN m N).Pairwise (fun a b => scoreD m b ≤ scoreD m a) ∧
      (∀ d ∈ topN m N, ∀ dd ∈ keys m, dd ∉ topN m N → scoreD m dd ≤ scoreD m d) := by
  refine ⟨?_, ?_, topN_pairwise m N hnd, ?_⟩
  · intro hle
    rw [topN, if_neg (not_lt.mpr hle)]
    exact sortedKeys_perm m
  · intro hlt
    rw [topN, if_pos hlt, List.length_take, sortedKeys_length]
    exact min_eq_left hlt.le
  · intro d hd dd hdd hnot
    by_cases hlt : N < m.length
    · have hddsk : dd ∈ (sortedKeys m).take N ++ (sortedKeys m).drop N := by
        rw [List.take_append_drop]
        exact (sortedKeys_perm m).mem_iff.mpr hdd
      rw [topN, if_pos hlt] at hd hnot
      have hdrop : dd ∈ (sortedKeys m).drop N := by
        rcases List.mem_append.mp hddsk with h2 | h2
        · exact absurd h2 hnot
        · exact h2
      have hpw := sortedKeys_pairwise m hnd
      rw [← List.take_append_drop N (sortedKeys m)] at hpw
      exact (List.pairwise_append.mp hpw).2.2 d hd dd hdrop
    · rw [topN, if_neg hlt] at hnot
      exact absurd ((sortedKeys_perm m).mem_iff.mpr hdd) hnot

/-- C7 witness: the selector contract evaluated on the two-entry score
dictionary `[(1, 2), (2, 3)]` with `N = 1`. -/
theorem claim_C7_witness :
    ((keys [((1:Nat), (2:ℚ)), (2, 3)]).Nodup) ∧
      (([((1:Nat), (2:ℚ)), (2, 3)].length ≤ 1 →
          (topN [((1:Nat), (2:ℚ)), (2, 3)] 1).Perm (keys [((1:Nat), (2:ℚ)), (2, 3)])) ∧
        (1 < [((1:Nat), (2:ℚ)), (2, 3)].length →
          (topN [((1:Nat), (2:ℚ)), (2, 3)] 1).length = 1) ∧
        (topN [((1:Nat), (2:ℚ)), (2, 3)] 1).Pairwise
          (fun a b => scoreD [((1:Nat), (2:ℚ)), (2, 3)] b ≤
            scoreD [((1:Nat), (2:ℚ)), (2, 3)] a) ∧
        (∀ d ∈ topN [((1:Nat), (2:ℚ)), (2, 3)] 1,
          ∀ dd ∈ keys [((1:Nat), (2:ℚ)), (2, 3)],
            dd ∉ topN [((1:Nat), (2:ℚ)), (2, 3)] 1 →
              scoreD [((1:Nat), (2:ℚ)), (2, 3)] dd ≤
                scoreD [((1:Nat), (2:ℚ)), (2, 3)] d)) :=
  ⟨by decide, claim_C7_topN_selector [((1:Nat), (2:ℚ)), (2, 3)] 1 (by decide)⟩

end IR
